import Mathlib

/-!
Verification of the gverse object-graph-mapper core (marshaling engine,
transaction retry policy, graph session preconditions, connection probe).

The TypeScript source is shallowly embedded:
* JavaScript values are the inductive `JVal` (vertex instances carry their
  own-property list and their `_edges` declaration map).
* Objects are association lists in insertion order; property assignment
  (`setF`) replaces in place or appends, matching JS object semantics for
  the duplicate-free key lists JS guarantees.
* The dgraph client is a black-box `Store` giving the response of the k-th
  underlying query/mutate call; each transaction operation returns its
  result, the next call index, and the list of store calls it issued.
* Unbounded JS recursion (nested marshal/unmarshal, the bounded retry loop)
  is fuel-indexed; canonical entry points supply fuel that the bounded
  retry counter can never exhaust, and marshal theorems are stated for
  every fuel.
* Where the JS would throw a TypeError on data no caller can produce
  (calling `.marshal()` on a non-vertex array element), the model keeps the
  value unchanged; no claim exercises that corner.
-/

/-- Model of JS `String.prototype.startsWith` for a one-character prefix. -/
def jsStartsWith (s : String) (c : Char) : Bool :=
  match s.data with
  | [] => false
  | c0 :: _ => decide (c0 = c)

/-- Replace the first occurrence of character `a` by `b` (JS
`String.prototype.replace` with a one-character string pattern). -/
def replaceFirst : List Char → Char → Char → List Char
  | [], _, _ => []
  | c :: cs, a, b => if c = a then b :: cs else c :: replaceFirst cs a b

/-- String-level wrapper of `replaceFirst`. -/
def jsReplaceChar (s : String) (a b : Char) : String :=
  String.mk (replaceFirst s.data a b)

/-- Does needle `n` occur at the start of the haystack? -/
def startsChars : List Char → List Char → Bool
  | [], _ => true
  | _ :: _, [] => false
  | a :: as, b :: bs => decide (a = b) && startsChars as bs

/-- Does needle `n` occur anywhere in the haystack? -/
def subChars (n : List Char) : List Char → Bool
  | [] => startsChars n []
  | c :: t => startsChars n (c :: t) || subChars n t

/-- Model of JS `String.prototype.includes`. -/
def jsIncludes (s sub : String) : Bool := subChars sub.data s.data

/-- Cardinality of edges (src/gverse/edge.ts). -/
inductive Cardinality where
  | Single
  | Multiple
deriving DecidableEq

/-- Direction of edges (src/gverse/edge.ts). -/
inductive Direction where
  | Directed
  | Undirected
deriving DecidableEq

/-- An edge declaration: target vertex class (by name, resolved through a
registry standing for the TS class reference), cardinality, and the
reverse-edge name (blank implies directed), as in class `Edge`. -/
structure EdgeDecl where
  typeName : String
  cardinality : Cardinality
  reverseEdgeName : String
deriving DecidableEq

/-- `Edge.direction`: `Undirected` iff a non-empty reverse-edge name was
supplied. -/
def EdgeDecl.direction (e : EdgeDecl) : Direction :=
  if e.reverseEdgeName = "" then .Directed else .Undirected

/-- JavaScript values as the marshaling engine sees them. `vert` is a
`Vertex` instance: its own properties and its `_edges` declaration map. -/
inductive JVal where
  | undefined
  | null
  | bool (b : Bool)
  | num (n : Int)
  | str (s : String)
  | arr (xs : List JVal)
  | obj (fields : List (String × JVal))
  | vert (fields : List (String × JVal)) (edges : List (String × EdgeDecl))

/-- JS truthiness. -/
def truthy : JVal → Bool
  | .undefined => false
  | .null => false
  | .bool b => b
  | .num n => decide (n ≠ 0)
  | .str s => decide (s ≠ "")
  | .arr _ => true
  | .obj _ => true
  | .vert _ _ => true

/-- First binding of key `k` in a property list. -/
def lookupF : List (String × JVal) → String → Option JVal
  | [], _ => none
  | p :: rest, k => if p.1 = k then some p.2 else lookupF rest k

/-- Property read on a property list: `undefined` when absent. -/
def getField (l : List (String × JVal)) (k : String) : JVal :=
  (lookupF l k).getD .undefined

/-- Property assignment on a property list: replace the (unique) existing
binding in place, else append — the JS object update semantics. -/
def setF : List (String × JVal) → String → JVal → List (String × JVal)
  | [], k, v => [(k, v)]
  | p :: rest, k, v => if p.1 = k then (k, v) :: rest else p :: setF rest k v

/-- Property deletion (JS `delete values[k]`). -/
def delF (l : List (String × JVal)) (k : String) : List (String × JVal) :=
  l.filter (fun p => decide (p.1 ≠ k))

/-- First edge declaration bound to key `k` in an `_edges` map. -/
def edgeLookup : List (String × EdgeDecl) → String → Option EdgeDecl
  | [], _ => none
  | p :: rest, k => if p.1 = k then some p.2 else edgeLookup rest k

/-- Property read on a `JVal` (`v[k]`): objects look the key up, arrays
expose `length`, everything else yields `undefined`. -/
def getProp (v : JVal) (k : String) : JVal :=
  match v with
  | .obj fs => getField fs k
  | .arr xs => if k = "length" then .num (xs.length : Int) else .undefined
  | _ => .undefined

/-- A vertex class: default own properties of a fresh instance (as left by
the zero-argument constructor) and its `_edges` declaration map. -/
structure VertexClass where
  defaults : List (String × JVal)
  edges : List (String × EdgeDecl)

/-- Name-indexed class registry, standing for the direct TS class
references held by edge declarations. -/
abbrev Registry := List (String × VertexClass)

/-- Resolve a class name (the TS class reference always resolves; the
default is never reached for registered names). -/
def getClass : Registry → String → VertexClass
  | [], _ => ⟨[], []⟩
  | p :: rest, name => if p.1 = name then p.2 else getClass rest name

/-- One edge value under `Vertex.autoMarshal` with traverse on: vertices
recurse via `cm` (`p.marshal()`), arrays map over their elements. -/
def marshalChild (cm : List (String × JVal) → List (String × EdgeDecl) → List (String × JVal)) :
    JVal → JVal
  | .arr xs => .arr (xs.map (fun p =>
      match p with
      | .vert fl ed => .obj (cm fl ed)
      | q => q))
  | .vert fl ed => .obj (cm fl ed)
  | q => q

/-- One iteration of the `Object.getOwnPropertyNames(vertex).forEach` loop
of `Vertex.autoMarshal` (src/gverse/vertex.ts, lines 113-143). -/
def marshalStep (cm : List (String × JVal) → List (String × EdgeDecl) → List (String × JVal))
    (edges : List (String × EdgeDecl)) (traverse : Bool)
    (values : List (String × JVal)) (kv : String × JVal) : List (String × JVal) :=
  if jsStartsWith kv.1 '_' then values
  else if truthy kv.2 && (edgeLookup edges kv.1).isSome then
    if traverse then
      match edgeLookup edges kv.1 with
      | some ed =>
        if ed.direction = Direction.Undirected then values
        else setF values kv.1 (marshalChild cm kv.2)
      | none => values
    else values
  else setF values (jsReplaceChar kv.1 '$' '@') kv.2

/-- The whole field loop of `Vertex.autoMarshal`, with `am` handling
recursive marshaling of linked vertices (`p.marshal()`, which defaults to
traverse = true). -/
def marshalRun (am : List (String × JVal) → List (String × EdgeDecl) → Bool → List (String × JVal))
    (fields : List (String × JVal)) (edges : List (String × EdgeDecl)) (traverse : Bool) :
    List (String × JVal) :=
  fields.foldl (marshalStep (fun fl ed => am fl ed true) edges traverse) []

/-- `Vertex.autoMarshal`, fuel-indexed on the nesting depth of linked
vertices (the JS recursion is unbounded; every theorem holds for every
sufficient fuel). -/
def Vertex.autoMarshal : Nat → List (String × JVal) → List (String × EdgeDecl) → Bool →
    List (String × JVal)
  | 0, _, _, _ => []
  | f + 1, fields, edges, traverse => marshalRun (Vertex.autoMarshal f) fields edges traverse

/-- One iteration of the `for key in values` assignment loop of
`Vertex.autoUnmarshal` (src/gverse/vertex.ts, lines 160-181); `cu` builds
`new edge.type().unmarshal(v)`. -/
def unmarshalStep (cu : String → JVal → JVal) (edges : List (String × EdgeDecl))
    (fl : List (String × JVal)) (kv : String × JVal) : List (String × JVal) :=
  if jsStartsWith kv.1 '_' then fl
  else
    setF fl (jsReplaceChar kv.1 '@' '$')
      (match edgeLookup edges kv.1, kv.2 with
       | some ed, .arr xs =>
         if ed.cardinality = Cardinality.Single then
           cu ed.typeName ((xs.getLast?).getD .undefined)
         else .arr (xs.map (cu ed.typeName))
       | _, _ => kv.2)

/-- The edge-reset loop of `Vertex.autoUnmarshal`: every declared edge
field is set to `undefined`. -/
def resetEdges (edges : List (String × EdgeDecl)) (fields : List (String × JVal)) :
    List (String × JVal) :=
  edges.foldl (fun fl ke => setF fl ke.1 .undefined) fields

/-- The store's reverse-edge projection key for an edge declaration. -/
def reverseKey (e : EdgeDecl) : String := "~" ++ e.reverseEdgeName

/-- The reverse-edge pass of `Vertex.autoUnmarshal`: for every undirected
edge, move the reverse-marker binding onto the edge's own key. -/
def reversePass (edges : List (String × EdgeDecl)) (fs : List (String × JVal)) :
    List (String × JVal) :=
  edges.foldl (fun fs2 ke =>
    if ke.2.direction = Direction.Undirected then
      delF (setF fs2 ke.1 (getField fs2 (reverseKey ke.2))) (reverseKey ke.2)
    else fs2) fs

/-- The body of `Vertex.autoUnmarshal` for one level, with `au` the
unmarshal used for nested payloads (`new edge.type().unmarshal(v)`).
For a non-object payload the `for key in values` loop runs zero times. -/
def unmarshalRun (au : List (String × JVal) → List (String × EdgeDecl) → JVal → List (String × JVal))
    (reg : Registry) (fields : List (String × JVal)) (edges : List (String × EdgeDecl))
    (values : JVal) : List (String × JVal) :=
  let fields1 := resetEdges edges fields
  match values with
  | .obj fs =>
    (reversePass edges fs).foldl
      (unmarshalStep
        (fun tn v =>
          JVal.vert (au (getClass reg tn).defaults (getClass reg tn).edges v)
            (getClass reg tn).edges)
        edges)
      fields1
  | _ => fields1

/-- `Vertex.autoUnmarshal` (src/gverse/vertex.ts, lines 146-183),
fuel-indexed on nesting depth; returns the updated own-property list of the
vertex being unmarshaled in place. -/
def Vertex.autoUnmarshal (reg : Registry) : Nat → List (String × JVal) →
    List (String × EdgeDecl) → JVal → List (String × JVal)
  | 0, fields, _, _ => fields
  | f + 1, fields, edges, values => unmarshalRun (Vertex.autoUnmarshal reg f) reg fields edges values

/-- `MaxRetries` (src/gverse/retry.ts): times to retry pending/aborted
transactions. -/
def MaxRetries : Nat := 5

/-- Error value thrown by the store or by the library. -/
structure Err where
  message : String
deriving DecidableEq

/-- `shouldRetry` (src/gverse/retry.ts): retry iff the error exists, its
message indicates a retry condition, and retries remain. -/
def shouldRetry (error : Option Err) (retries : Nat) : Bool :=
  match error with
  | none => false
  | some e => jsIncludes e.message "retry" && decide (retries < MaxRetries)

/-- The black-box dgraph client: response of the k-th underlying call. -/
structure Store where
  resp : Nat → Except Err JVal

/-- Record of one underlying store call issued by a transaction. -/
inductive StoreCall where
  | queryCall (q : JVal) (vars : JVal)
  | mutateSet (values : JVal)
  | mutateDelete (values : JVal)
  | upsertCall (q : JVal) (values : JVal) (condition : Option String)

/-- `Transaction.query` retry loop (src/gverse/transaction.ts, lines
43-70): on failure the stale handle is discarded (best effort), and if the
error is retryable a fresh read-only handle retries with the counter
incremented; otherwise the error propagates. Returns the result, the next
underlying call index, and the issued calls. The fuel-0 fallback is never
reached from the canonical entry (`shouldRetry` forces `retries <
MaxRetries`). -/
def Transaction.queryGo (st : Store) (q vars : JVal) :
    Nat → Nat → Nat → Except Err JVal × Nat × List StoreCall
  | fuel, retries, k =>
    match st.resp k with
    | .ok j => (.ok j, k + 1, [.queryCall q vars])
    | .error e =>
      if shouldRetry (some e) retries then
        match fuel with
        | 0 => (.error e, k + 1, [.queryCall q vars])
        | f + 1 =>
          let r := Transaction.queryGo st q vars f (retries + 1) (k + 1)
          (r.1, r.2.1, .queryCall q vars :: r.2.2)
      else (.error e, k + 1, [.queryCall q vars])

/-- `Transaction.query` entry point (retries defaults to 0). -/
def Transaction.query (st : Store) (q vars : JVal) (k : Nat) :
    Except Err JVal × Nat × List StoreCall :=
  Transaction.queryGo st q vars MaxRetries 0 k

/-- The uid normalization at the top of `Transaction.mutate`'s try block:
`if (!values.uid) values.uid = "_:createdUid"`, mutating the caller's
payload in place (property assignment on a non-object is a silent no-op). -/
def normUid (values : JVal) : JVal :=
  if truthy (getProp values "uid") then values
  else
    match values with
    | .obj fs => .obj (setF fs "uid" (.str "_:createdUid"))
    | other => other

/-- JS nullish coalescing `a ?? b`. -/
def nullishOr (a b : JVal) : JVal :=
  match a with
  | .undefined => b
  | .null => b
  | x => x

/-- `Transaction.mutate` retry loop (src/gverse/transaction.ts, lines
73-103): normalize the uid in place, issue the set-mutation, resolve the
assigned uid from the uid map (falling back to the payload's uid); on a
retryable error obtain a fresh read-write handle and recurse. Also returns
the payload as the caller observes it after the call. -/
def Transaction.mutateGo (st : Store) :
    Nat → JVal → Nat → Nat → Except Err JVal × JVal × Nat × List StoreCall
  | fuel, values, retries, k =>
    let values1 := normUid values
    match st.resp k with
    | .ok uidMap =>
      let updatedUid := nullishOr (getProp uidMap "createdUid") (getProp values1 "uid")
      if truthy updatedUid then (.ok updatedUid, values1, k + 1, [.mutateSet values1])
      else (.ok (getProp values1 "uid"), values1, k + 1, [.mutateSet values1])
    | .error e =>
      if shouldRetry (some e) retries then
        match fuel with
        | 0 => (.error e, values1, k + 1, [.mutateSet values1])
        | f + 1 =>
          let r := Transaction.mutateGo st f values1 (retries + 1) (k + 1)
          (r.1, r.2.1, r.2.2.1, .mutateSet values1 :: r.2.2.2)
      else (.error e, values1, k + 1, [.mutateSet values1])

/-- `Transaction.mutate` entry point. -/
def Transaction.mutate (st : Store) (values : JVal) (k : Nat) :
    Except Err JVal × JVal × Nat × List StoreCall :=
  Transaction.mutateGo st MaxRetries values 0 k

/-- `values.length < 1` in the delete guard: a number compares, `undefined`
(a plain object's missing `length`) compares false; other shapes do not
arise for delete payloads. -/
def jsLtOne (v : JVal) : Bool :=
  match v with
  | .num n => decide (n < 1)
  | _ => false

/-- `Transaction.delete` (src/gverse/transaction.ts, lines 152-180): no-op
guard, then a delete-mutation; on a retryable error the code calls
`this.query(values, retries + 1)` — the payload becomes the query text, the
incremented counter becomes the query variables, and query's own retry
counter restarts at 0. -/
def Transaction.delete (st : Store) (values : JVal) (retries : Nat) (k : Nat) :
    Except Err JVal × Nat × List StoreCall :=
  if !truthy (getProp values "uid") && jsLtOne (getProp values "length") then
    (.ok .undefined, k, [])
  else
    match st.resp k with
    | .ok uidResp => (.ok (getProp uidResp "blank-0"), k + 1, [.mutateDelete values])
    | .error e =>
      if shouldRetry (some e) retries then
        let r := Transaction.query st values (.num ((retries : Int) + 1)) (k + 1)
        (r.1, r.2.1, .mutateDelete values :: r.2.2)
      else (.error e, k + 1, [.mutateDelete values])

/-- `Transaction.upsert` retry loop (src/gverse/transaction.ts, lines
183-221): one request combining the query and the conditional mutation;
true on success; retryable errors recurse with a fresh handle. -/
def Transaction.upsertGo (st : Store) (q values : JVal) (condition : Option String) :
    Nat → Nat → Nat → Except Err Bool × Nat × List StoreCall
  | fuel, retries, k =>
    match st.resp k with
    | .ok _ => (.ok true, k + 1, [.upsertCall q values condition])
    | .error e =>
      if shouldRetry (some e) retries then
        match fuel with
        | 0 => (.error e, k + 1, [.upsertCall q values condition])
        | f + 1 =>
          let r := Transaction.upsertGo st q values condition f (retries + 1) (k + 1)
          (r.1, r.2.1, .upsertCall q values condition :: r.2.2)
      else (.error e, k + 1, [.upsertCall q values condition])

/-- `Transaction.upsert` entry point. -/
def Transaction.upsert (st : Store) (q values : JVal) (condition : Option String) (k : Nat) :
    Except Err Bool × Nat × List StoreCall :=
  Transaction.upsertGo st q values condition MaxRetries 0 k

/-- Nesting step of the expansion phrase (`nest` inside `Graph.Depths`). -/
def nestExpansion (s : String) : String := "uid expand(_all_) \x7b " ++ s ++ " \x7d"

/-- The expression after n nestings of the flat clause. -/
def expansionExpr : Nat → String
  | 0 => "uid expand(_all_)"
  | n + 1 => nestExpansion (expansionExpr n)

/-- `Graph.Depths` (src/gverse/graph.ts, lines 348-357): index 0 is the
array hole left by the loop starting at 1; index i (1 ≤ i ≤ 10) holds the
expression after i - 1 nestings. -/
def Graph.Depths : List (Option String) :=
  none :: (List.range 10).map (fun i => some (expansionExpr i))

/-- `Graph.expansion` (src/gverse/graph.ts, lines 341-345): depths outside
1..10 throw; otherwise the memoized phrase is returned. -/
def Graph.expansion (depth : Int) : Except String String :=
  if depth < 1 ∨ depth > 10 then .error "Invalid depth. Should be between 1 and 10."
  else .ok (((Graph.Depths.get? depth.toNat).getD none).getD "")

/-- JS string interpolation of a value into a query template. -/
def toDisplay (v : JVal) : String :=
  match v with
  | .str s => s
  | .num n => toString n
  | .undefined => "undefined"
  | .null => "null"
  | .bool b => toString b
  | _ => "[object Object]"

/-- `res.vertex.pop()`: last element of an array, else `undefined`. -/
def popLast (v : JVal) : JVal :=
  match v with
  | .arr xs => (xs.getLast?).getD .undefined
  | _ => .undefined

/-- `Graph.load` (src/gverse/graph.ts, lines 105-120): requires a uid
synchronously, then queries by uid with the expansion clause and
unmarshals the last match in place. -/
def Graph.load (reg : Registry) (st : Store) (fuel : Nat) (fields : List (String × JVal))
    (edges : List (String × EdgeDecl)) (depth : Int) (k : Nat) :
    Except Err (Option (List (String × JVal))) × Nat × List StoreCall :=
  if !truthy (getField fields "uid") then (.error ⟨"Vertex instance requires uid"⟩, k, [])
  else
    match Graph.expansion depth with
    | .error m => (.error ⟨m⟩, k, [])
    | .ok exp =>
      let r := Transaction.query st
        (.str ("\x7bvertex(func:uid(" ++ toDisplay (getField fields "uid") ++
          ")) @filter(has(dgraph.type)) \x7b " ++ exp ++ " \x7d\x7d")) .undefined k
      match r.1 with
      | .ok res =>
        if truthy (getProp res "vertex") then
          (.ok (some (Vertex.autoUnmarshal reg fuel fields edges (popLast (getProp res "vertex")))),
            r.2.1, r.2.2)
        else (.ok none, r.2.1, r.2.2)
      | .error e => (.error e, r.2.1, r.2.2)

/-- `Graph.uid` (src/gverse/graph.ts, lines 86-101): values of any vertex
by uid; used by `Graph.update` for the before-hook snapshot. -/
def Graph.uid (st : Store) (uid : JVal) (depth : Int) (k : Nat) :
    Except Err JVal × Nat × List StoreCall :=
  if !truthy uid then (.error ⟨"No uid provided"⟩, k, [])
  else
    match Graph.expansion depth with
    | .error m => (.error ⟨m⟩, k, [])
    | .ok exp =>
      let r := Transaction.query st
        (.str ("\x7bvertex(func:uid(" ++ toDisplay uid ++
          ")) @filter(has(dgraph.type)) \x7b " ++ exp ++ " \x7d\x7d")) .undefined k
      match r.1 with
      | .ok res =>
        if truthy (getProp res "vertex") then (.ok (popLast (getProp res "vertex")), r.2.1, r.2.2)
        else (.ok .undefined, r.2.1, r.2.2)
      | .error e => (.error e, r.2.1, r.2.2)

/-- `Graph.update` (src/gverse/graph.ts, lines 252-269): requires a uid
synchronously; fetches the current snapshot (depth 3 when traversing, else
1) for the default no-op `beforeUpdate` hook, re-marshals, mutates, and
returns the vertex. -/
def Graph.update (st : Store) (fuel : Nat) (fields : List (String × JVal))
    (edges : List (String × EdgeDecl)) (traverse : Bool) (k : Nat) :
    Except Err (List (String × JVal)) × Nat × List StoreCall :=
  if !truthy (getField fields "uid") then
    (.error ⟨"Can not save a vertex without a uid"⟩, k, [])
  else
    match Graph.uid st (getField fields "uid") (if traverse then 3 else 1) k with
    | (.error e, k1, tr) => (.error e, k1, tr)
    | (.ok _, k1, tr) =>
      let values := JVal.obj (Vertex.autoMarshal fuel fields edges traverse)
      match Transaction.mutate st values k1 with
      | (.ok _, _, k2, tr2) => (.ok fields, k2, tr ++ tr2)
      | (.error e, _, k2, tr2) => (.error e, k2, tr ++ tr2)

/-- `Graph.delete` (src/gverse/graph.ts, lines 234-249): requires a uid
synchronously; marshals for the no-op hooks, deletes keyed solely by uid,
returns true unconditionally once the delete call resolves. -/
def Graph.delete (st : Store) (fuel : Nat) (fields : List (String × JVal))
    (edges : List (String × EdgeDecl)) (traverse : Bool) (k : Nat) :
    Except Err Bool × Nat × List StoreCall :=
  if !truthy (getField fields "uid") then
    (.error ⟨"Can not delete a vertex without a uid"⟩, k, [])
  else
    let _values := Vertex.autoMarshal fuel fields edges traverse
    match Transaction.delete st (.obj [("uid", getField fields "uid")]) 0 k with
    | (.ok _, k1, tr) => (.ok true, k1, tr)
    | (.error e, k1, tr) => (.error e, k1, tr)

/-- `Graph.save` (src/gverse/graph.ts, lines 272-282): requires a uid
synchronously; bare marshal + mutate with no hooks. -/
def Graph.save (st : Store) (fuel : Nat) (fields : List (String × JVal))
    (edges : List (String × EdgeDecl)) (traverse : Bool) (k : Nat) :
    Except Err (List (String × JVal)) × Nat × List StoreCall :=
  if !truthy (getField fields "uid") then
    (.error ⟨"Can not save a vertex without a uid"⟩, k, [])
  else
    match Transaction.mutate st (.obj (Vertex.autoMarshal fuel fields edges traverse)) k with
    | (.ok _, _, k1, tr) => (.ok fields, k1, tr)
    | (.error e, _, k1, tr) => (.error e, k1, tr)

/-- The probe query issued by `Connection.connect`. -/
def probeQuery : String := "\x7btotal (func: has(dgraph.type)) \x7bcount(uid)\x7d\x7d"

/-- Does evaluating `res.total.pop().count` (the announce log line) throw a
TypeError? Property access on `undefined`/`null` throws, `.pop` on a
non-array throws; property access on other primitives merely yields
`undefined`. -/
def announceThrows (res : JVal) : Bool :=
  match getProp res "total" with
  | .arr xs =>
    match xs.getLast? with
    | some .undefined => true
    | some .null => true
    | some _ => false
    | none => true
  | _ => true

/-- The try block of `Connection.connect` (src/gverse/connection.ts, lines
37-65): probe through a throwaway read-only transaction, optionally
evaluate the announce line (which may itself throw), then set verified and
return true. -/
def Connection.connectTry (st : Store) (announce : Bool) (k : Nat) :
    Except Err Bool × Nat × List StoreCall :=
  match Transaction.query st (.str probeQuery) .undefined k with
  | (.ok res, k1, tr) =>
    if announce then
      if announceThrows res then (.error ⟨"TypeError"⟩, k1, tr) else (.ok true, k1, tr)
    else (.ok true, k1, tr)
  | (.error e, k1, tr) => (.error e, k1, tr)

/-- `Connection.connect`: the catch block maps any failure of the try block
to verified = false and result false; success gives verified = true and
result true. Returns ((result, verified), next call index, calls). -/
def Connection.connect (st : Store) (announce : Bool) (k : Nat) :
    (Bool × Bool) × Nat × List StoreCall :=
  match Connection.connectTry st announce k with
  | (.ok _, k1, tr) => ((true, true), k1, tr)
  | (.error _, k1, tr) => ((false, false), k1, tr)

def retryErr : Err := ⟨"Transaction has been aborted. Please retry"⟩

def conflictStore : Store := ⟨fun _ => .error retryErr⟩

def conflictOnceStore : Store :=
  ⟨fun k => if k = 0 then .error retryErr else .ok (.obj [("ok", .bool true)])⟩

def payload1 : JVal := .obj [("uid", .str "0x1")]

def edC5 : EdgeDecl := ⟨"Person", .Single, ""⟩

def edgesC5 : List (String × EdgeDecl) := [("owner", edC5)]

def edC6 : EdgeDecl := ⟨"Person", .Single, "pets"⟩

def edgesC6 : List (String × EdgeDecl) := [("owner", edC6)]

def fieldsC5 : List (String × JVal) := [("type", .str "Pet"), ("owner", .null)]

def fieldsW5 : List (String × JVal) :=
  [("type", .str "Pet"), ("owner", .vert [("type", .str "Person")] [])]

def regT : Registry := [("T", ⟨[("type", .str "T")], []⟩)]

def fieldsE : List (String × JVal) := [("type", .str "E")]

def edC7 : EdgeDecl := ⟨"T", .Single, "owns"⟩

def edgesC7 : List (String × EdgeDecl) := [("friend", edC7)]

def edD7 : EdgeDecl := ⟨"T", .Single, ""⟩

def edgesD7 : List (String × EdgeDecl) := [("friend", edD7)]

def fs7 : List (String × JVal) := [("friend", .arr [.obj [], .obj [("a", .num 1)]])]

def fields8 : List (String × JVal) := [("name$ur", .str "X")]

def stC9 : Store := ⟨fun _ => .ok (.obj [])⟩

def stOkC9 : Store := ⟨fun _ => .ok (.obj [("total", .arr [.obj [("count", .num 5)]])])⟩

def fieldsNoUid : List (String × JVal) := [("type", .str "Pet")]

/-- Reading back the key just set yields the value just written. -/
theorem lookupF_setF_self (l : List (String × JVal)) (k : String) (v : JVal) :
    lookupF (setF l k v) k = some v := by
  induction l with
  | nil => simp [setF, lookupF]
  | cons p rest ih =>
    obtain ⟨a, b⟩ := p
    by_cases h : a = k
    · simp [setF, h, lookupF]
    · simp [setF, h, lookupF, ih]

/-- Setting one key leaves the others unchanged. -/
theorem lookupF_setF_ne (l : List (String × JVal)) (k k2 : String) (v : JVal)
    (h : k2 ≠ k) : lookupF (setF l k v) k2 = lookupF l k2 := by
  have h2 : ¬ (k = k2) := fun hh => h hh.symm
  induction l with
  | nil => simp [setF, lookupF, h2]
  | cons p rest ih =>
    obtain ⟨a, b⟩ := p
    by_cases hp : a = k
    · subst hp
      simp [setF, lookupF, h2]
    · simp [setF, hp, lookupF, ih]

/-- Deleting one key leaves the others unchanged. -/
theorem lookupF_delF_ne (l : List (String × JVal)) (k k2 : String)
    (h : k2 ≠ k) : lookupF (delF l k) k2 = lookupF l k2 := by
  induction l with
  | nil => simp [delF, lookupF]
  | cons p rest ih =>
    obtain ⟨a, b⟩ := p
    by_cases hp : a = k
    · subst hp
      have h2 : ¬ (a = k2) := fun hh => h (hh ▸ rfl)
      simp [delF, List.filter_cons, lookupF, h2] at *
      exact ih
    · by_cases hq : a = k2
      · subst hq
        simp [delF, List.filter_cons, hp, lookupF]
      · simp [delF, List.filter_cons, hp, lookupF, hq] at *
        exact ih

/-- A successful lookup comes from a member binding. -/
theorem lookupF_mem (l : List (String × JVal)) (k : String) (v : JVal)
    (h : lookupF l k = some v) : (k, v) ∈ l := by
  induction l with
  | nil => simp [lookupF] at h
  | cons p rest ih =>
    obtain ⟨a, b⟩ := p
    by_cases hp : a = k
    · subst hp
      simp [lookupF] at h
      subst h
      exact List.mem_cons_self _ _
    · simp [lookupF, hp] at h
      exact List.mem_cons_of_mem _ (ih h)

/-- With duplicate-free keys, membership determines the lookup. -/
theorem nodup_mem_lookupF (l : List (String × JVal)) (k : String) (v : JVal)
    (hnd : (l.map Prod.fst).Nodup) (h : (k, v) ∈ l) : lookupF l k = some v := by
  induction l with
  | nil => simp at h
  | cons p rest ih =>
    obtain ⟨a, b⟩ := p
    rw [List.map_cons, List.nodup_cons] at hnd
    rcases List.mem_cons.mp h with h1 | h1
    · injection h1 with h1a h1b
      subst h1a
      subst h1b
      simp [lookupF]
    · have hk : k ∈ rest.map Prod.fst := List.mem_map_of_mem _ h1
      have hp : ¬ a = k := fun hh => hnd.1 (hh ▸ hk)
      simp [lookupF, hp]
      exact ih hnd.2 h1

/-- A successful lookup splits the list at the first binding of the key. -/
theorem lookupF_split (l : List (String × JVal)) (k : String) (v : JVal)
    (h : lookupF l k = some v) :
    ∃ l1 l2, l = l1 ++ (k, v) :: l2 ∧ ∀ p ∈ l1, p.1 ≠ k := by
  induction l with
  | nil => simp [lookupF] at h
  | cons p rest ih =>
    obtain ⟨a, b⟩ := p
    by_cases hp : a = k
    · subst hp
      simp [lookupF] at h
      subst h
      exact ⟨[], rest, rfl, by simp⟩
    · simp [lookupF, hp] at h
      obtain ⟨l1, l2, heq, hl1⟩ := ih h
      refine ⟨(a, b) :: l1, l2, by simp [heq], ?_⟩
      intro q hq
      rcases List.mem_cons.mp hq with h1 | h1
      · subst h1; exact hp
      · exact hl1 q h1

/-- In a duplicate-free list split at a key, the tail is free of that key. -/
theorem nodup_split_right (l1 l2 : List (String × JVal)) (k : String) (v : JVal)
    (hnd : ((l1 ++ (k, v) :: l2).map Prod.fst).Nodup) :
    ∀ p ∈ l2, p.1 ≠ k := by
  intro p hp hpk
  rw [List.map_append, List.nodup_append] at hnd
  have h3 := hnd.2.1
  rw [List.map_cons, List.nodup_cons] at h3
  exact h3.1 (List.mem_map.mpr ⟨p, hp, hpk⟩)

/-- Keys after a set are old keys or the key just set. -/
theorem keys_setF_sub (l : List (String × JVal)) (k : String) (v : JVal) (k2 : String)
    (h : k2 ∈ (setF l k v).map Prod.fst) : k2 ∈ l.map Prod.fst ∨ k2 = k := by
  induction l with
  | nil => simp [setF] at h; exact Or.inr h
  | cons p rest ih =>
    obtain ⟨a, b⟩ := p
    by_cases hp : a = k
    · subst hp
      simp [setF] at h
      rcases h with h | h
      · exact Or.inr h
      · exact Or.inl (by simp [h])
    · simp [setF, hp] at h
      rcases h with h | h
      · exact Or.inl (by simp [h])
      · rcases ih (by simpa using h) with hh | hh
        · exact Or.inl (by simp; exact Or.inr (by simpa using hh))
        · exact Or.inr hh

/-- Setting a key preserves duplicate-freeness of the keys. -/
theorem nodup_keys_setF (l : List (String × JVal)) (k : String) (v : JVal)
    (hnd : (l.map Prod.fst).Nodup) : ((setF l k v).map Prod.fst).Nodup := by
  induction l with
  | nil => simp [setF]
  | cons p rest ih =>
    obtain ⟨a, b⟩ := p
    rw [List.map_cons, List.nodup_cons] at hnd
    by_cases hp : a = k
    · subst hp
      rw [show setF ((a, b) :: rest) a v = (a, v) :: rest from by simp [setF]]
      rw [List.map_cons, List.nodup_cons]
      exact hnd
    · rw [show setF ((a, b) :: rest) k v = (a, b) :: setF rest k v from by simp [setF, hp]]
      rw [List.map_cons, List.nodup_cons]
      constructor
      · intro hmem
        rcases keys_setF_sub rest k v a hmem with hh | hh
        · exact hnd.1 hh
        · exact hp hh
      · exact ih hnd.2

/-- Keys after a delete come from the old keys. -/
theorem keys_delF_sub (l : List (String × JVal)) (k : String) (k2 : String)
    (h : k2 ∈ (delF l k).map Prod.fst) : k2 ∈ l.map Prod.fst := by
  induction l with
  | nil => simp [delF] at h
  | cons p rest ih =>
    obtain ⟨a, b⟩ := p
    by_cases hp : a = k
    · rw [show delF ((a, b) :: rest) k = delF rest k from by simp [delF, List.filter_cons, hp]] at h
      exact List.mem_cons_of_mem _ (ih h)
    · rw [show delF ((a, b) :: rest) k = (a, b) :: delF rest k from by
        simp [delF, List.filter_cons, hp]] at h
      rcases List.mem_cons.mp h with h1 | h1
      · simp [h1]
      · exact List.mem_cons_of_mem _ (ih h1)

/-- Deleting a key preserves duplicate-freeness of the keys. -/
theorem nodup_keys_delF (l : List (String × JVal)) (k : String)
    (hnd : (l.map Prod.fst).Nodup) : ((delF l k).map Prod.fst).Nodup := by
  induction l with
  | nil => simp [delF]
  | cons p rest ih =>
    obtain ⟨a, b⟩ := p
    rw [List.map_cons, List.nodup_cons] at hnd
    by_cases hp : a = k
    · rw [show delF ((a, b) :: rest) k = delF rest k from by simp [delF, List.filter_cons, hp]]
      exact ih hnd.2
    · rw [show delF ((a, b) :: rest) k = (a, b) :: delF rest k from by
        simp [delF, List.filter_cons, hp]]
      rw [List.map_cons, List.nodup_cons]
      exact ⟨fun hmem => hnd.1 (keys_delF_sub rest k a hmem), ih hnd.2⟩

/-- An edge key that is a member always resolves to some declaration. -/
theorem edgeLookup_isSome_of_mem (edges : List (String × EdgeDecl)) (ke : String × EdgeDecl)
    (h : ke ∈ edges) : (edgeLookup edges ke.1).isSome = true := by
  induction edges with
  | nil => simp at h
  | cons p rest ih =>
    obtain ⟨a, b⟩ := p
    rcases List.mem_cons.mp h with h1 | h1
    · subst h1; simp [edgeLookup]
    · by_cases hp : a = ke.1
      · simp [edgeLookup, hp]
      · simp [edgeLookup, hp]
        exact ih h1

/-- With duplicate-free edge keys, membership determines the declaration. -/
theorem edgeLookup_of_mem_nodup (edges : List (String × EdgeDecl)) (ke : String × EdgeDecl)
    (hnd : (edges.map Prod.fst).Nodup) (h : ke ∈ edges) :
    edgeLookup edges ke.1 = some ke.2 := by
  obtain ⟨k1, d1⟩ := ke
  induction edges with
  | nil => simp at h
  | cons p rest ih =>
    obtain ⟨a, b⟩ := p
    rw [List.map_cons, List.nodup_cons] at hnd
    rcases List.mem_cons.mp h with h1 | h1
    · injection h1 with h1a h1b
      subst h1a
      subst h1b
      simp [edgeLookup]
    · have hk : k1 ∈ rest.map Prod.fst := List.mem_map_of_mem _ h1
      have hp : ¬ a = k1 := fun hh => hnd.1 (hh ▸ hk)
      simp [edgeLookup, hp]
      exact ih hnd.2 h1

/-- A fold whose every step preserves the lookup of `k` preserves it. -/
theorem foldl_lookup_const {α : Type} (step : List (String × JVal) → α → List (String × JVal))
    (k : String) (l : List α)
    (H : ∀ x ∈ l, ∀ vs, lookupF (step vs x) k = lookupF vs k) (acc : List (String × JVal)) :
    lookupF (l.foldl step acc) k = lookupF acc k := by
  induction l generalizing acc with
  | nil => simp
  | cons x rest ih =>
    rw [List.foldl_cons, ih (fun y hy => H y (List.mem_cons_of_mem _ hy)),
      H x (List.mem_cons_self _ _)]

/-- A fold step that either leaves the list alone or sets some key of the
given shape maps keys into old keys plus the allowed shapes. -/
theorem foldl_keys_pred {α : Type} (step : List (String × JVal) → α → List (String × JVal))
    (Q : α → String → Prop) (l : List α)
    (H : ∀ x ∈ l, ∀ vs key, key ∈ (step vs x).map Prod.fst → key ∈ vs.map Prod.fst ∨ Q x key)
    (acc : List (String × JVal)) (key : String)
    (h : key ∈ (l.foldl step acc).map Prod.fst) :
    key ∈ acc.map Prod.fst ∨ ∃ x ∈ l, Q x key := by
  induction l generalizing acc with
  | nil => exact Or.inl (by simpa using h)
  | cons x rest ih =>
    rw [List.foldl_cons] at h
    rcases ih (fun y hy => H y (List.mem_cons_of_mem _ hy)) _ h with h1 | h1
    · rcases H x (List.mem_cons_self _ _) acc key h1 with h2 | h2
      · exact Or.inl h2
      · exact Or.inr ⟨x, List.mem_cons_self _ _, h2⟩
    · obtain ⟨y, hy, hq⟩ := h1
      exact Or.inr ⟨y, List.mem_cons_of_mem _ hy, hq⟩

/-- A fold whose steps preserve duplicate-freeness of keys preserves it. -/
theorem foldl_nodup_inv {α : Type} (step : List (String × JVal) → α → List (String × JVal))
    (l : List α)
    (H : ∀ x ∈ l, ∀ vs, (vs.map Prod.fst).Nodup → ((step vs x).map Prod.fst).Nodup)
    (acc : List (String × JVal)) (hacc : (acc.map Prod.fst).Nodup) :
    ((l.foldl step acc).map Prod.fst).Nodup := by
  induction l generalizing acc with
  | nil => simpa
  | cons x rest ih =>
    rw [List.foldl_cons]
    exact ih (fun y hy => H y (List.mem_cons_of_mem _ hy)) _
      (H x (List.mem_cons_self _ _) acc hacc)

/-- Replacing a character that does not occur is the identity. -/
theorem replaceFirst_not_mem (l : List Char) (a b : Char) (h : a ∉ l) :
    replaceFirst l a b = l := by
  induction l with
  | nil => rfl
  | cons c cs ih =>
    have hca : ¬ c = a := fun hh => h (hh ▸ List.mem_cons_self _ _)
    simp [replaceFirst, hca]
    exact ih (fun hh => h (List.mem_cons_of_mem _ hh))

/-- If the replaced character occurs, the replacement occurs afterwards. -/
theorem mem_replaceFirst (l : List Char) (a b : Char) (h : a ∈ l) :
    b ∈ replaceFirst l a b := by
  induction l with
  | nil => simp at h
  | cons c cs ih =>
    by_cases hca : c = a
    · simp [replaceFirst, hca]
    · rcases List.mem_cons.mp h with h1 | h1
      · exact absurd h1.symm hca
      · simp [replaceFirst, hca]
        exact Or.inr (ih h1)

/-- A replacement that lands on a list avoiding the replacement character
must have been the identity. -/
theorem replaceFirst_kept (l m : List Char) (a b : Char) (hb : b ∉ m)
    (h : replaceFirst l a b = m) : l = m := by
  by_cases ha : a ∈ l
  · exact absurd (h ▸ mem_replaceFirst l a b ha) hb
  · exact (replaceFirst_not_mem l a b ha) ▸ h

/-- Replacing back after replacing restores the original, provided the
replacement character was fresh. -/
theorem replaceFirst_round (l : List Char) (a b : Char) (hb : b ∉ l) :
    replaceFirst (replaceFirst l a b) b a = l := by
  induction l with
  | nil => rfl
  | cons c cs ih =>
    have hcb : ¬ c = b := fun hh => hb (hh ▸ List.mem_cons_self _ _)
    by_cases hca : c = a
    · subst hca
      simp [replaceFirst]
    · simp [replaceFirst, hca, hcb]
      exact ih (fun hh => hb (List.mem_cons_of_mem _ hh))

/-- If the original avoids the replacement character, a changed result
differs from the original. -/
theorem replaceFirst_ne (l : List Char) (a b : Char) (ha : a ∈ l) (hb : b ∉ l) :
    replaceFirst l a b ≠ l :=
  fun h => hb (h ▸ mem_replaceFirst l a b ha)

/-- Strings are equal iff their character lists are. -/
theorem stringDataEq (s t : String) (h : s.data = t.data) : s = t := by
  cases s
  cases t
  exact congrArg String.mk h

/-- Data of the string-level replace. -/
theorem jsReplaceChar_data (s : String) (a b : Char) :
    (jsReplaceChar s a b).data = replaceFirst s.data a b := rfl

/-- String-level: replacing an absent character is the identity. -/
theorem jsReplaceChar_not_mem (s : String) (a b : Char) (h : a ∉ s.data) :
    jsReplaceChar s a b = s :=
  stringDataEq _ _ (by rw [jsReplaceChar_data, replaceFirst_not_mem _ _ _ h])

/-- String-level: a replace landing on a string avoiding the replacement
character was the identity. -/
theorem jsReplaceChar_kept (s t : String) (a b : Char) (hb : b ∉ t.data)
    (h : jsReplaceChar s a b = t) : s = t :=
  stringDataEq _ _ (replaceFirst_kept _ _ _ _ hb (congrArg String.data h))

/-- String-level round trip of the locale-marker rewrite. -/
theorem jsReplaceChar_round (s : String) (a b : Char) (hb : b ∉ s.data) :
    jsReplaceChar (jsReplaceChar s a b) b a = s :=
  stringDataEq _ _ (by rw [jsReplaceChar_data, jsReplaceChar_data, replaceFirst_round _ _ _ hb])

/-- String-level: a replace that fired changes the string. -/
theorem jsReplaceChar_ne (s : String) (a b : Char) (ha : a ∈ s.data) (hb : b ∉ s.data) :
    jsReplaceChar s a b ≠ s :=
  fun h => replaceFirst_ne s.data a b ha hb (congrArg String.data h)

/-- The replacement character occurs in a fired replace. -/
theorem jsReplaceChar_mem (s : String) (a b : Char) (ha : a ∈ s.data) :
    b ∈ (jsReplaceChar s a b).data := by
  rw [jsReplaceChar_data]
  exact mem_replaceFirst _ _ _ ha

/-- If the replaced string starts with `c`, so did the original, unless the
head was the replaced character. -/
theorem jsStartsWith_replace (s : String) (a b c : Char)
    (h : jsStartsWith (jsReplaceChar s a b) c = true) :
    c = b ∨ jsStartsWith s c = true := by
  unfold jsStartsWith at *
  rw [jsReplaceChar_data] at h
  cases hs : s.data with
  | nil => rw [hs] at h; simp [replaceFirst] at h
  | cons c0 cs =>
    rw [hs] at h
    by_cases hc0 : c0 = a
    · simp [replaceFirst, hc0] at h
      exact Or.inl h.symm
    · simp [replaceFirst, hc0] at h
      exact Or.inr (by simp [h])

/-- The reverse-marker key starts with the marker. -/
theorem reverseKey_starts (e : EdgeDecl) : jsStartsWith (reverseKey e) '~' = true := by
  unfold reverseKey jsStartsWith
  rw [String.data_append]
  simp

/-- Keys that start differently are different. -/
theorem ne_of_starts (s t : String) (c : Char)
    (hs : jsStartsWith s c = true) (ht : jsStartsWith t c = false) : s ≠ t := by
  intro h
  rw [h, ht] at hs
  exact Bool.noConfusion hs

/-- A marshal step never touches a key different from both of its possible
write targets. -/
theorem marshalStep_lookup_ne
    (cm : List (String × JVal) → List (String × EdgeDecl) → List (String × JVal))
    (edges : List (String × EdgeDecl)) (traverse : Bool) (values : List (String × JVal))
    (kv : String × JVal) (k : String)
    (h1 : kv.1 ≠ k) (h2 : jsReplaceChar kv.1 '$' '@' ≠ k) :
    lookupF (marshalStep cm edges traverse values kv) k = lookupF values k := by
  unfold marshalStep
  repeat' split
  all_goals first
    | rfl
    | exact lookupF_setF_ne _ _ _ _ (Ne.symm h1)
    | exact lookupF_setF_ne _ _ _ _ (Ne.symm h2)

/-- A truthy edge field is skipped entirely by a shallow marshal and by a
traversing marshal of an undirected edge. -/
theorem marshalStep_skip
    (cm : List (String × JVal) → List (String × EdgeDecl) → List (String × JVal))
    (edges : List (String × EdgeDecl)) (traverse : Bool) (values : List (String × JVal))
    (kv : String × JVal) (ed : EdgeDecl)
    (ht : truthy kv.2 = true) (hed : edgeLookup edges kv.1 = some ed)
    (hcase : traverse = false ∨ ed.direction = Direction.Undirected) :
    marshalStep cm edges traverse values kv = values := by
  unfold marshalStep
  by_cases h0 : jsStartsWith kv.1 '_' = true
  · simp [h0]
  · rcases hcase with hc | hc
    · subst hc
      simp [h0, ht, hed]
    · cases htr : traverse
      · simp [h0, ht, hed]
      · simp [h0, ht, hed, hc]

/-- Every key present after a marshal step is an old key, an edge key of
the entry, or the locale-rewritten entry key. -/
theorem marshalStep_keys
    (cm : List (String × JVal) → List (String × EdgeDecl) → List (String × JVal))
    (edges : List (String × EdgeDecl)) (traverse : Bool) (vs : List (String × JVal))
    (kv : String × JVal) (key : String)
    (h : key ∈ (marshalStep cm edges traverse vs kv).map Prod.fst) :
    key ∈ vs.map Prod.fst ∨ (key = kv.1 ∧ (edgeLookup edges kv.1).isSome = true) ∨
      key = jsReplaceChar kv.1 '$' '@' := by
  unfold marshalStep at h
  split at h
  · exact Or.inl h
  · split at h
    · split at h
      · split at h
        next heq =>
          split at h
          · exact Or.inl h
          · rcases keys_setF_sub _ _ _ _ h with hh | hh
            · exact Or.inl hh
            · exact Or.inr (Or.inl ⟨hh, by rw [heq]; rfl⟩)
        next => exact Or.inl h
      · exact Or.inl h
    · rcases keys_setF_sub _ _ _ _ h with hh | hh
      · exact Or.inl hh
      · exact Or.inr (Or.inr hh)

/-- A marshal step preserves duplicate-freeness of keys. -/
theorem marshalStep_nodup
    (cm : List (String × JVal) → List (String × EdgeDecl) → List (String × JVal))
    (edges : List (String × EdgeDecl)) (traverse : Bool) (vs : List (String × JVal))
    (kv : String × JVal) (h : (vs.map Prod.fst).Nodup) :
    ((marshalStep cm edges traverse vs kv).map Prod.fst).Nodup := by
  unfold marshalStep
  repeat' split
  all_goals first | exact h | exact nodup_keys_setF _ _ _ h

/-- An unmarshal step never touches a key different from its write target. -/
theorem unmarshalStep_lookup_ne (cu : String → JVal → JVal)
    (edges : List (String × EdgeDecl)) (fl : List (String × JVal))
    (kv : String × JVal) (k : String) (h : jsReplaceChar kv.1 '@' '$' ≠ k) :
    lookupF (unmarshalStep cu edges fl kv) k = lookupF fl k := by
  unfold unmarshalStep
  split
  · rfl
  · exact lookupF_setF_ne _ _ _ _ (Ne.symm h)

/-- The reverse pass leaves alone every key that is not an undirected edge
key and does not carry the reverse marker. -/
theorem reversePass_lookup_ne (edges : List (String × EdgeDecl)) (fs : List (String × JVal))
    (k : String)
    (hke : ∀ ke ∈ edges, ke.2.direction = Direction.Undirected → ke.1 ≠ k)
    (hk : jsStartsWith k '~' = false) :
    lookupF (reversePass edges fs) k = lookupF fs k := by
  unfold reversePass
  refine foldl_lookup_const _ k edges ?_ fs
  intro ke hke2 vs
  split
  next hd =>
    rw [lookupF_delF_ne _ _ _ (Ne.symm (ne_of_starts _ _ _ (reverseKey_starts _) hk))]
    exact lookupF_setF_ne _ _ _ _ (Ne.symm (hke ke hke2 hd))
  next => rfl

/-- The reverse pass preserves duplicate-freeness of keys. -/
theorem reversePass_nodup (edges : List (String × EdgeDecl)) (fs : List (String × JVal))
    (h : (fs.map Prod.fst).Nodup) : ((reversePass edges fs).map Prod.fst).Nodup := by
  unfold reversePass
  refine foldl_nodup_inv _ edges ?_ fs h
  intro ke _ vs hvs
  split
  · exact nodup_keys_delF _ _ (nodup_keys_setF _ _ _ hvs)
  · exact hvs

/-- Every key present after the reverse pass is an old key or an edge key. -/
theorem reversePass_keys (edges : List (String × EdgeDecl)) (fs : List (String × JVal))
    (key : String) (h : key ∈ (reversePass edges fs).map Prod.fst) :
    key ∈ fs.map Prod.fst ∨ ∃ ke ∈ edges, key = ke.1 := by
  unfold reversePass at h
  refine foldl_keys_pred _ (fun ke key2 => key2 = ke.1) edges ?_ fs key h
  intro ke _ vs key2 h2
  split at h2
  · rcases keys_setF_sub _ _ _ _ (keys_delF_sub _ _ _ h2) with hh | hh
    · exact Or.inl hh
    · exact Or.inr hh
  · exact Or.inl h2

/-- Folding over a list split around an entry that writes `k`
unconditionally, followed only by entries that never touch `k`, pins the
final binding of `k`. -/
theorem foldl_emit {α : Type} (step : List (String × JVal) → α → List (String × JVal))
    (k : String) (v : JVal) (l1 l2 : List α) (x : α) (acc : List (String × JVal))
    (hx : ∀ vs, lookupF (step vs x) k = some v)
    (H2 : ∀ y ∈ l2, ∀ vs, lookupF (step vs y) k = lookupF vs k) :
    lookupF ((l1 ++ x :: l2).foldl step acc) k = some v := by
  rw [List.foldl_append, List.foldl_cons, foldl_lookup_const step k l2 H2]
  exact hx _

/-- Helper: in a duplicate-free field list, the entry at key `k` carries
the value `getField` reads. -/
theorem entry_value_eq (fields : List (String × JVal)) (kv : String × JVal) (k : String)
    (hnd : (fields.map Prod.fst).Nodup) (hkv : kv ∈ fields) (hq : kv.1 = k) :
    getField fields k = kv.2 := by
  have hmem : (k, kv.2) ∈ fields := by
    rw [← hq]
    exact (Prod.mk.eta) ▸ hkv
  rw [getField, nodup_mem_lookupF fields k kv.2 hnd hmem]
  rfl

/-- Claim C5 (amended): a truthy edge-declared field is omitted by a shallow
marshal, at every fuel. -/
theorem marshal_false_omits_edge (fields : List (String × JVal))
    (edges : List (String × EdgeDecl)) (k : String)
    (hed : (edgeLookup edges k).isSome = true)
    (ht : truthy (getField fields k) = true)
    (hnd : (fields.map Prod.fst).Nodup)
    (hk : '@' ∉ k.data) :
    ∀ fuel, lookupF (Vertex.autoMarshal fuel fields edges false) k = none := by
  intro fuel
  cases fuel with
  | zero => rfl
  | succ f =>
    show lookupF (marshalRun (Vertex.autoMarshal f) fields edges false) k = none
    unfold marshalRun
    refine (foldl_lookup_const _ k fields ?_ []).trans rfl
    intro kv hkv vs
    by_cases hq : kv.1 = k
    · obtain ⟨ed, hed2⟩ := Option.isSome_iff_exists.mp hed
      have hv : truthy kv.2 = true := by
        rw [← entry_value_eq fields kv k hnd hkv hq]
        exact ht
      rw [marshalStep_skip _ _ _ _ _ ed hv (by rw [hq]; exact hed2) (Or.inl rfl)]
    · refine marshalStep_lookup_ne _ _ _ _ _ _ hq ?_
      intro hcontra
      exact hq (jsReplaceChar_kept kv.1 k '$' '@' hk hcontra)

/-- Claim C6 (amended): a truthy undirected-edge field is omitted by a
traversing marshal, at every fuel. -/
theorem marshal_true_omits_undirected (fields : List (String × JVal))
    (edges : List (String × EdgeDecl)) (k : String) (ed : EdgeDecl)
    (hed : edgeLookup edges k = some ed)
    (hrev : ed.reverseEdgeName ≠ "")
    (ht : truthy (getField fields k) = true)
    (hnd : (fields.map Prod.fst).Nodup)
    (hk : '@' ∉ k.data) :
    ∀ fuel, lookupF (Vertex.autoMarshal fuel fields edges true) k = none := by
  intro fuel
  cases fuel with
  | zero => rfl
  | succ f =>
    show lookupF (marshalRun (Vertex.autoMarshal f) fields edges true) k = none
    unfold marshalRun
    refine (foldl_lookup_const _ k fields ?_ []).trans rfl
    intro kv hkv vs
    by_cases hq : kv.1 = k
    · have hv : truthy kv.2 = true := by
        rw [← entry_value_eq fields kv k hnd hkv hq]
        exact ht
      rw [marshalStep_skip _ _ _ _ _ ed hv (by rw [hq]; exact hed)
        (Or.inr (by simp [EdgeDecl.direction, hrev]))]
    · refine marshalStep_lookup_ne _ _ _ _ _ _ hq ?_
      intro hcontra
      exact hq (jsReplaceChar_kept kv.1 k '$' '@' hk hcontra)

/-- Claim C7 (amended): for a Directed Single-cardinality edge whose payload
key holds an array, unmarshal binds the field to exactly one entity of the
target class built from the last array element. -/
theorem unmarshal_single_takes_last (reg : Registry) (fields : List (String × JVal))
    (edges : List (String × EdgeDecl)) (k : String) (ed : EdgeDecl)
    (fs : List (String × JVal)) (xs : List JVal) (x : JVal)
    (hed : edgeLookup edges k = some ed)
    (hcard : ed.cardinality = Cardinality.Single)
    (hdir : ed.reverseEdgeName = "")
    (hend : (edges.map Prod.fst).Nodup)
    (hfs : lookupF fs k = some (.arr xs))
    (_hlen : 1 < xs.length)
    (hx : xs.getLast? = some x)
    (hnd : (fs.map Prod.fst).Nodup)
    (hk1 : jsStartsWith k '_' = false)
    (hk2 : jsStartsWith k '~' = false)
    (hk3 : '@' ∉ k.data)
    (hk4 : '$' ∉ k.data) :
    ∀ f, lookupF (Vertex.autoUnmarshal reg (f + 1) fields edges (.obj fs)) k =
      some (.vert
        (Vertex.autoUnmarshal reg f (getClass reg ed.typeName).defaults
          (getClass reg ed.typeName).edges x)
        (getClass reg ed.typeName).edges) := by
  intro f
  show lookupF (unmarshalRun (Vertex.autoUnmarshal reg f) reg fields edges (.obj fs)) k = _
  unfold unmarshalRun
  dsimp only
  have hrp : lookupF (reversePass edges fs) k = some (.arr xs) := by
    rw [reversePass_lookup_ne edges fs k ?_ hk2]
    · exact hfs
    · intro ke hke hd hke1
      have := edgeLookup_of_mem_nodup edges ke hend hke
      rw [hke1, hed] at this
      have hkeed : ke.2 = ed := Option.some.injEq _ _ ▸ this.symm ▸ rfl
      rw [hkeed] at hd
      rw [EdgeDecl.direction, if_pos hdir] at hd
      exact Direction.noConfusion hd
  have hrnd : ((reversePass edges fs).map Prod.fst).Nodup := reversePass_nodup edges fs hnd
  obtain ⟨l1, l2, heq, _⟩ := lookupF_split _ _ _ hrp
  have hl2 : ∀ p ∈ l2, p.1 ≠ k := nodup_split_right l1 l2 k _ (heq ▸ hrnd)
  rw [heq]
  refine foldl_emit _ k _ l1 l2 _ _ ?_ ?_
  · intro vs
    unfold unmarshalStep
    rw [if_neg (by simp [hk1]), hed]
    simp only [hcard, if_pos rfl, hx, Option.getD_some]
    rw [jsReplaceChar_not_mem k '@' '$' hk3]
    exact lookupF_setF_self _ _ _
  · intro y hy vs
    refine unmarshalStep_lookup_ne _ _ _ _ _ ?_
    intro hcontra
    exact (hl2 y hy) (jsReplaceChar_kept y.1 k '@' '$' hk4 hcontra)

/-- Helper: the locale-rewritten key of a key that avoids a marker prefix
also avoids it. -/
theorem starts_replace_false (k : String) (c : Char) (h : jsStartsWith k c = false)
    (hc : ¬ c = '@') : jsStartsWith (jsReplaceChar k '$' '@') c = false := by
  cases hb : jsStartsWith (jsReplaceChar k '$' '@') c with
  | false => rfl
  | true =>
    rcases jsStartsWith_replace k '$' '@' c hb with hcb | hcb
    · exact absurd hcb hc
    · rw [h] at hcb
      exact Bool.noConfusion hcb

/-- Claim C8: a non-edge locale-suffixed field is emitted by marshal under
the locale-tag key, and unmarshaling the marshaled payload restores the
suffixed field, for every traverse flag and all sufficient fuels. -/
theorem locale_round_trip (reg : Registry) (fields fields2 : List (String × JVal))
    (edges : List (String × EdgeDecl)) (k : String) (v : JVal)
    (h1 : lookupF fields k = some v)
    (h2 : jsStartsWith k '_' = false)
    (h3 : jsStartsWith k '~' = false)
    (h4 : '$' ∈ k.data)
    (h5 : ∀ kv ∈ fields, '@' ∉ (kv.1 : String).data)
    (h6 : (fields.map Prod.fst).Nodup)
    (h7 : edgeLookup edges k = none)
    (h8 : edgeLookup edges (jsReplaceChar k '$' '@') = none)
    (h9 : ∀ ke ∈ edges, '@' ∉ (ke.1 : String).data) :
    ∀ (tr : Bool) (f g : Nat),
      lookupF (Vertex.autoMarshal (f + 1) fields edges tr) (jsReplaceChar k '$' '@') = some v
      ∧ lookupF (Vertex.autoUnmarshal reg (g + 1) fields2 edges
          (.obj (Vertex.autoMarshal (f + 1) fields edges tr))) k = some v := by
  intro tr f g
  have hk3 : '@' ∉ k.data := h5 (k, v) (lookupF_mem _ _ _ h1)
  have hkat : '@' ∈ (jsReplaceChar k '$' '@').data := jsReplaceChar_mem k '$' '@' h4
  have hround : jsReplaceChar (jsReplaceChar k '$' '@') '@' '$' = k :=
    jsReplaceChar_round k '$' '@' hk3
  obtain ⟨l1, l2, heq, _⟩ := lookupF_split _ _ _ h1
  have hl2 : ∀ p ∈ l2, p.1 ≠ k := nodup_split_right l1 l2 k v (heq ▸ h6)
  -- the marshal side
  have hm : lookupF (Vertex.autoMarshal (f + 1) fields edges tr) (jsReplaceChar k '$' '@')
      = some v := by
    show lookupF (marshalRun (Vertex.autoMarshal f) fields edges tr) _ = some v
    unfold marshalRun
    rw [heq]
    refine foldl_emit _ _ v l1 l2 _ _ ?_ ?_
    · intro vs
      unfold marshalStep
      rw [if_neg (by simp [h2])]
      rw [if_neg (by simp [h7])]
      exact lookupF_setF_self _ _ _
    · intro y hy vs
      have hyf : y ∈ fields := by
        rw [heq]
        exact List.mem_append_right _ (List.mem_cons_of_mem _ hy)
      refine marshalStep_lookup_ne _ _ _ _ _ _ ?_ ?_
      · intro hcontra
        exact (hcontra ▸ h5 y hyf) hkat
      · intro hcontra
        have hc2 : y.1 = k := by
          have := congrArg (fun s => jsReplaceChar s '@' '$') hcontra
          simp only at this
          rw [jsReplaceChar_round y.1 '$' '@' (h5 y hyf), hround] at this
          exact this
        exact hl2 y hy hc2
  refine ⟨hm, ?_⟩
  -- facts about the marshaled payload
  have pnd : ((Vertex.autoMarshal (f + 1) fields edges tr).map Prod.fst).Nodup := by
    show ((marshalRun (Vertex.autoMarshal f) fields edges tr).map Prod.fst).Nodup
    unfold marshalRun
    exact foldl_nodup_inv _ fields (fun kv _ vs h => marshalStep_nodup _ _ _ _ _ h) [] (by simp)
  have pkeys : ∀ key ∈ (Vertex.autoMarshal (f + 1) fields edges tr).map Prod.fst,
      ∃ kv ∈ fields, (key = kv.1 ∧ (edgeLookup edges kv.1).isSome = true) ∨
        key = jsReplaceChar kv.1 '$' '@' := by
    intro key hkey
    have hkey2 : key ∈ (marshalRun (Vertex.autoMarshal f) fields edges tr).map Prod.fst := hkey
    unfold marshalRun at hkey2
    rcases foldl_keys_pred _
        (fun kv key2 => (key2 = kv.1 ∧ (edgeLookup edges kv.1).isSome = true) ∨
          key2 = jsReplaceChar kv.1 '$' '@') fields
        (fun kv _ vs key2 hk2 => by
          rcases marshalStep_keys _ _ _ _ _ _ hk2 with hh | hh | hh
          · exact Or.inl hh
          · exact Or.inr (Or.inl hh)
          · exact Or.inr (Or.inr hh)) [] key hkey2 with hh | hh
    · simp at hh
    · exact hh
  -- the unmarshal side
  show lookupF (unmarshalRun (Vertex.autoUnmarshal reg g) reg fields2 edges
    (.obj (Vertex.autoMarshal (f + 1) fields edges tr))) k = some v
  unfold unmarshalRun
  dsimp only
  have hstar : jsStartsWith (jsReplaceChar k '$' '@') '~' = false :=
    starts_replace_false k '~' h3 (by decide)
  have hrp : lookupF (reversePass edges (Vertex.autoMarshal (f + 1) fields edges tr))
      (jsReplaceChar k '$' '@') = some v := by
    rw [reversePass_lookup_ne _ _ _ ?_ hstar]
    · exact hm
    · intro ke hke _ hcontra
      exact (hcontra ▸ h9 ke hke) hkat
  have rpnd : ((reversePass edges (Vertex.autoMarshal (f + 1) fields edges tr)).map
      Prod.fst).Nodup := reversePass_nodup _ _ pnd
  obtain ⟨m1, m2, heq2, _⟩ := lookupF_split _ _ _ hrp
  have hm2 : ∀ p ∈ m2, p.1 ≠ jsReplaceChar k '$' '@' :=
    nodup_split_right m1 m2 _ v (heq2 ▸ rpnd)
  rw [heq2]
  refine foldl_emit _ k v m1 m2 _ _ ?_ ?_
  · intro vs
    unfold unmarshalStep
    rw [if_neg (by simp [starts_replace_false k '_' h2 (by decide)])]
    rw [h8]
    rw [hround]
    exact lookupF_setF_self _ _ _
  · intro y hy vs
    have hyrp : y ∈ reversePass edges (Vertex.autoMarshal (f + 1) fields edges tr) := by
      rw [heq2]
      exact List.mem_append_right _ (List.mem_cons_of_mem _ hy)
    refine unmarshalStep_lookup_ne _ _ _ _ _ ?_
    intro hcontra
    rcases reversePass_keys _ _ y.1 (List.mem_map_of_mem _ hyrp) with hh | hh
    · rcases pkeys y.1 hh with ⟨kv, hkv, hcase⟩
      rcases hcase with ⟨hkk, hsome⟩ | hkk
      · rw [hkk, jsReplaceChar_not_mem _ _ _ (h5 kv hkv)] at hcontra
        rw [hcontra, h7] at hsome
        exact Bool.noConfusion hsome
      · rw [hkk, jsReplaceChar_round kv.1 '$' '@' (h5 kv hkv)] at hcontra
        exact hm2 y hy (by rw [hkk, hcontra])
    · obtain ⟨ke, hke, hkk⟩ := hh
      rw [hkk, jsReplaceChar_not_mem _ _ _ (h9 ke hke)] at hcontra
      have := edgeLookup_isSome_of_mem edges ke hke
      rw [hcontra, h7] at this
      exact Bool.noConfusion this

/-- Normalizing the uid twice is the same as once. -/
theorem normUid_idem (v : JVal) : normUid (normUid v) = normUid v := by
  by_cases h : truthy (getProp v "uid") = true
  · have hv : normUid v = v := by
      cases v <;> rw [normUid, if_pos h] <;> intro fs hfs <;> exact JVal.noConfusion hfs
    rw [hv]
    exact hv
  · have h2 : truthy (getProp v "uid") = false := by
      cases hb : truthy (getProp v "uid")
      · rfl
      · exact absurd hb h
    cases v with
    | obj fs =>
      have hv : normUid (JVal.obj fs) = JVal.obj (setF fs "uid" (.str "_:createdUid")) := by
        rw [normUid, if_neg h]
      have hset : truthy (getProp (JVal.obj (setF fs "uid" (.str "_:createdUid"))) "uid")
          = true := by
        show truthy (getField (setF fs "uid" (.str "_:createdUid")) "uid") = true
        rw [getField, lookupF_setF_self]
        rfl
      rw [hv, normUid, if_pos hset]
    | undefined => simp only [normUid, h2, Bool.false_eq_true, if_false]
    | null => simp only [normUid, h2, Bool.false_eq_true, if_false]
    | bool b => simp only [normUid, h2, Bool.false_eq_true, if_false]
    | num n => simp only [normUid, h2, Bool.false_eq_true, if_false]
    | str s => simp only [normUid, h2, Bool.false_eq_true, if_false]
    | arr xs => simp only [normUid, h2, Bool.false_eq_true, if_false]
    | vert fl ed => simp only [normUid, h2, Bool.false_eq_true, if_false]

/-- The payload observed by the caller after any mutate attempt is the
uid-normalized payload, at every fuel and retry count. -/
theorem mutateGo_payload (st : Store) : ∀ (fuel : Nat) (values : JVal) (retries k : Nat),
    (Transaction.mutateGo st fuel values retries k).2.1 = normUid values := by
  intro fuel
  induction fuel with
  | zero =>
    intro values retries k
    unfold Transaction.mutateGo
    cases h : st.resp k with
    | ok uidMap =>
      simp only [h]
      split <;> rfl
    | error e =>
      by_cases hr : shouldRetry (some e) retries = true
      · simp [h, hr]
      · simp [h, hr]
  | succ f ih =>
    intro values retries k
    unfold Transaction.mutateGo
    cases h : st.resp k with
    | ok uidMap =>
      simp only [h]
      split <;> rfl
    | error e =>
      by_cases hr : shouldRetry (some e) retries = true
      · simp only [h, hr, if_true]
        show (Transaction.mutateGo st f (normUid values) (retries + 1) (k + 1)).2.1
          = normUid values
        rw [ih (normUid values) (retries + 1) (k + 1), normUid_idem]
      · simp [h, hr]

/-- Claim C4: with a missing or empty uid, load, update, delete and save all
fail synchronously with the precondition error and issue no store call. -/
theorem graph_missing_uid (reg : Registry) (st : Store) (f : Nat)
    (fields : List (String × JVal)) (edges : List (String × EdgeDecl))
    (depth : Int) (traverse : Bool) (k : Nat)
    (h : truthy (getField fields "uid") = false) :
    Graph.load reg st f fields edges depth k = (.error ⟨"Vertex instance requires uid"⟩, k, [])
    ∧ Graph.update st f fields edges traverse k
        = (.error ⟨"Can not save a vertex without a uid"⟩, k, [])
    ∧ Graph.delete st f fields edges traverse k
        = (.error ⟨"Can not delete a vertex without a uid"⟩, k, [])
    ∧ Graph.save st f fields edges traverse k
        = (.error ⟨"Can not save a vertex without a uid"⟩, k, []) := by
  refine ⟨?_, ?_, ?_, ?_⟩ <;>
    simp [Graph.load, Graph.update, Graph.delete, Graph.save, h]

/-- Claim C9 (amended): connect always returns a boolean with verified equal
to it; probe success with a quiet announce path yields true, any failure
of the try block yields false. -/
theorem connect_reports_boolean (st : Store) (announce : Bool) (k : Nat) :
    ((Connection.connect st announce k).1.1 = (Connection.connect st announce k).1.2)
    ∧ (∀ res k1 tr, Transaction.query st (.str probeQuery) .undefined k = (.ok res, k1, tr) →
        (announce = false ∨ announceThrows res = false) →
        Connection.connect st announce k = ((true, true), k1, tr))
    ∧ (∀ e k1 tr, Transaction.query st (.str probeQuery) .undefined k = (.error e, k1, tr) →
        Connection.connect st announce k = ((false, false), k1, tr)) := by
  refine ⟨?_, ?_, ?_⟩
  · unfold Connection.connect
    rcases hc : Connection.connectTry st announce k with ⟨e1, k1, tr⟩
    cases e1 <;> simp
  · intro res k1 tr hq hann
    unfold Connection.connect Connection.connectTry
    rw [hq]
    rcases hann with ha | ha
    · subst ha
      simp
    · cases announce <;> simp [ha]
  · intro e k1 tr hq
    unfold Connection.connect Connection.connectTry
    rw [hq]

/-- Claim C3: in-range integer depths return the memoized clause of that
depth (flat at 1, wrapped once per extra level), out-of-range depths fail
with the invalid-depth error. -/
theorem graph_expansion_spec (d : Int) :
    (1 ≤ d → d ≤ 10 → Graph.expansion d = .ok (expansionExpr (d.toNat - 1)))
    ∧ (d < 1 ∨ 10 < d → Graph.expansion d = .error "Invalid depth. Should be between 1 and 10.")
    ∧ expansionExpr 0 = "uid expand(_all_)"
    ∧ (∀ n : Nat, expansionExpr (n + 1) = "uid expand(_all_) \x7b " ++ expansionExpr n ++ " \x7d") := by
  refine ⟨?_, ?_, rfl, fun n => rfl⟩
  · intro h1 h2
    interval_cases d <;> rfl
  · intro h
    rw [Graph.expansion, if_pos (by omega)]

/-- Claim C1: with a store that fails every call with a conflict ("retry")
error, query, mutate and upsert are each attempted exactly MaxRetries + 1
= 6 times before the error propagates — but delete is attempted once and
then hands the payload to query (6 query calls, 7 store calls total). -/
theorem retry_exhaustion_behavior :
    Transaction.query conflictStore (.str "q") .undefined 0
      = (.error retryErr, 6, List.replicate 6 (.queryCall (.str "q") .undefined))
    ∧ Transaction.mutate conflictStore payload1 0
      = (.error retryErr, payload1, 6, List.replicate 6 (.mutateSet payload1))
    ∧ Transaction.upsert conflictStore (.str "q") payload1 none 0
      = (.error retryErr, 6, List.replicate 6 (.upsertCall (.str "q") payload1 none))
    ∧ Transaction.delete conflictStore payload1 0 0
      = (.error retryErr, 7,
          .mutateDelete payload1 :: List.replicate 6 (.queryCall payload1 (.num 1))) :=
  ⟨rfl, rfl, rfl, rfl⟩

/-- Claim C2: when the first delete attempt fails retryably, the second store
call is a query carrying the delete payload as query text and the counter
as variables — not a second delete mutation — and delete returns that
query's JSON. -/
theorem delete_retry_issues_query :
    Transaction.delete conflictOnceStore payload1 0 0
      = (.ok (.obj [("ok", .bool true)]), 2,
          [.mutateDelete payload1, .queryCall payload1 (.num 1)]) := rfl

/-- Counterexample for claim C5: an edge-declared field holding null is emitted by a
shallow marshal, so the payload does contain the edge key. -/
theorem marshal_false_leaks_falsy_edge :
    lookupF (Vertex.autoMarshal 1 fieldsC5 edgesC5 false) "owner" = some JVal.null
    ∧ ¬ (lookupF (Vertex.autoMarshal 1 fieldsC5 edgesC5 false) "owner" = none) :=
  ⟨rfl, fun h => Option.noConfusion
    ((rfl : lookupF (Vertex.autoMarshal 1 fieldsC5 edgesC5 false) "owner"
        = some JVal.null).symm.trans h)⟩

/-- Counterexample for claim C6: an undirected edge field holding null is emitted by
a traversing marshal, so the payload does contain the edge key. -/
theorem marshal_true_leaks_falsy_undirected :
    lookupF (Vertex.autoMarshal 1 fieldsC5 edgesC6 true) "owner" = some JVal.null
    ∧ ¬ (lookupF (Vertex.autoMarshal 1 fieldsC5 edgesC6 true) "owner" = none) :=
  ⟨rfl, fun h => Option.noConfusion
    ((rfl : lookupF (Vertex.autoMarshal 1 fieldsC5 edgesC6 true) "owner"
        = some JVal.null).symm.trans h)⟩

/-- Counterexample for claim C7: for an Undirected Single edge, a payload mapping the
edge's own key to a two-element array leaves the field undefined (the
reverse pass overwrites the key), not a constructed entity. -/
theorem unmarshal_single_undirected_cx :
    lookupF (Vertex.autoUnmarshal regT 2 fieldsE edgesC7 (.obj fs7)) "friend" = some JVal.undefined
    ∧ ∀ (fl : List (String × JVal)) (ed : List (String × EdgeDecl)),
        JVal.undefined ≠ JVal.vert fl ed :=
  ⟨rfl, fun _ _ h => JVal.noConfusion h⟩

/-- Counterexample for claim C9: with announce on and a successful probe whose JSON
lacks `total`, the announce line throws, so connect returns false with
verified false even though the probe succeeded. -/
theorem connect_announce_cx :
    Transaction.query stC9 (.str probeQuery) .undefined 0
      = (.ok (.obj []), 1, [.queryCall (.str probeQuery) .undefined])
    ∧ Connection.connect stC9 true 0
      = ((false, false), 1, [.queryCall (.str probeQuery) .undefined]) :=
  ⟨rfl, rfl⟩

/-- Claim C10: after any mutate call on an object payload, the caller's payload
carries uid "_:createdUid" when its uid was absent or falsy, and is
untouched when its uid was truthy. -/
theorem mutate_mutates_payload (st : Store) (fs : List (String × JVal)) (k : Nat) :
    (truthy (getField fs "uid") = false →
      getProp (Transaction.mutate st (.obj fs) k).2.1 "uid" = .str "_:createdUid")
    ∧ (truthy (getField fs "uid") = true →
      (Transaction.mutate st (.obj fs) k).2.1 = .obj fs) := by
  constructor
  · intro h
    rw [Transaction.mutate, mutateGo_payload]
    rw [normUid, if_neg (by simp [show truthy (getProp (JVal.obj fs) "uid") = false from h])]
    show getField (setF fs "uid" (.str "_:createdUid")) "uid" = .str "_:createdUid"
    rw [getField, lookupF_setF_self]
    rfl
  · intro h
    rw [Transaction.mutate, mutateGo_payload]
    rw [normUid, if_pos (show truthy (getProp (JVal.obj fs) "uid") = true from h)]

-- witnesses

/-- Witness for the expansion theorem at concrete depths. -/
theorem graph_expansion_spec_w :
    Graph.expansion 2 = .ok (expansionExpr 1)
    ∧ Graph.expansion 0 = .error "Invalid depth. Should be between 1 and 10." :=
  ⟨(graph_expansion_spec 2).1 (by decide) (by decide),
   (graph_expansion_spec 0).2.1 (Or.inl (by decide))⟩

/-- Witness for the missing-uid theorem on a concrete uid-less vertex. -/
theorem graph_missing_uid_w :
    Graph.load regT conflictStore 1 fieldsNoUid [] 3 0
      = (.error ⟨"Vertex instance requires uid"⟩, 0, [])
    ∧ Graph.update conflictStore 1 fieldsNoUid [] false 0
      = (.error ⟨"Can not save a vertex without a uid"⟩, 0, [])
    ∧ Graph.delete conflictStore 1 fieldsNoUid [] false 0
      = (.error ⟨"Can not delete a vertex without a uid"⟩, 0, [])
    ∧ Graph.save conflictStore 1 fieldsNoUid [] false 0
      = (.error ⟨"Can not save a vertex without a uid"⟩, 0, []) :=
  graph_missing_uid regT conflictStore 1 fieldsNoUid [] 3 false 0 rfl

/-- Witness for the shallow-marshal edge omission on a populated edge. -/
theorem marshal_false_omits_edge_w :
    lookupF (Vertex.autoMarshal 1 fieldsW5 edgesC5 false) "owner" = none :=
  marshal_false_omits_edge fieldsW5 edgesC5 "owner" rfl rfl (by decide) (by decide) 1

/-- Witness for the traversing-marshal undirected omission. -/
theorem marshal_true_omits_undirected_w :
    lookupF (Vertex.autoMarshal 1 fieldsW5 edgesC6 true) "owner" = none :=
  marshal_true_omits_undirected fieldsW5 edgesC6 "owner" edC6 rfl (by decide) rfl
    (by decide) (by decide) 1

/-- Witness for the Directed Single-cardinality last-element unmarshal. -/
theorem unmarshal_single_takes_last_w :
    lookupF (Vertex.autoUnmarshal regT 2 fieldsE edgesD7 (.obj fs7)) "friend"
      = some (.vert
          (Vertex.autoUnmarshal regT 1 (getClass regT "T").defaults (getClass regT "T").edges
            (.obj [("a", .num 1)]))
          (getClass regT "T").edges) :=
  unmarshal_single_takes_last regT fieldsE edgesD7 "friend" edD7 fs7
    [.obj [], .obj [("a", .num 1)]] (.obj [("a", .num 1)])
    rfl rfl rfl (by decide) rfl (by decide) rfl (by decide) rfl rfl (by decide) (by decide) 1

/-- Witness for the locale round trip on a concrete suffixed field. -/
theorem locale_round_trip_w :
    lookupF (Vertex.autoMarshal 1 fields8 [] false) "name@ur" = some (.str "X")
    ∧ lookupF (Vertex.autoUnmarshal regT 1 [] []
        (.obj (Vertex.autoMarshal 1 fields8 [] false))) "name$ur" = some (.str "X") :=
  locale_round_trip regT fields8 [] [] "name$ur" (.str "X")
    rfl rfl rfl (by decide) (by decide) (by decide) rfl rfl (by simp) false 0 0

/-- Witness for connect on a concrete healthy probe without announce. -/
theorem connect_reports_boolean_w :
    Connection.connect stOkC9 false 0
      = ((true, true), 1, [.queryCall (.str probeQuery) .undefined]) :=
  (connect_reports_boolean stOkC9 false 0).2.1
    (.obj [("total", .arr [.obj [("count", .num 5)]])]) 1
    [.queryCall (.str probeQuery) .undefined] rfl (Or.inl rfl)

/-- Witness for the mutate payload normalization on concrete payloads. -/
theorem mutate_mutates_payload_w :
    getProp (Transaction.mutate conflictStore (.obj [("name", .str "Biggles")]) 0).2.1 "uid"
      = .str "_:createdUid"
    ∧ (Transaction.mutate conflictStore (.obj [("uid", .str "0x2")]) 0).2.1
      = .obj [("uid", .str "0x2")] :=
  ⟨(mutate_mutates_payload conflictStore [("name", .str "Biggles")] 0).1 rfl,
   (mutate_mutates_payload conflictStore [("uid", .str "0x2")] 0).2 rfl⟩
